import Mathlib

/-!
# Verification of the cache-kit multi-index cache and its Redis adapter

This file gives a shallow embedding of the `cache` Go package
(`config.go`, `interface.go`, the memory cache, `redis.go`) and proves
properties of the embedded operations.

Modelling conventions:
* Go maps are modelled as association lists (`List (key × value)`) whose
  update (`alistInsert`) replaces an existing binding in place and appends
  a new binding at the end.  Where Go ranges over a map in unspecified
  order, the model iterates in this insertion order.
* `(V, bool)` returns are modelled as `Option V`; a Go `panic` is the
  `none` result of an `Option`-returning operation.
* Machine integers are modelled as `Nat`/`Int`; 32-bit arithmetic inside
  SHA-256 is truncated explicitly with `% 2 ^ 32`.
-/

set_option autoImplicit false
set_option maxRecDepth 200000

namespace CacheKit

universe u

variable {V : Type u}
variable {α : Type u}

/-- Association-list update, modelling assignment `m[k] = v` on a Go map:
replaces an existing binding in place, otherwise appends at the end. -/
def alistInsert (k : String) (v : α) : List (String × α) → List (String × α)
  | [] => [(k, v)]
  | (k₁, v₁) :: rest =>
      if k₁ = k then (k, v) :: rest else (k₁, v₁) :: alistInsert k v rest

/-- Association-list lookup, modelling `m[k]` on a Go map. -/
def alistLookup (k : String) : List (String × α) → Option α
  | [] => none
  | (k₁, v₁) :: rest => if k₁ = k then some v₁ else alistLookup k rest

/-- Association-list removal, modelling `delete(m, k)` on a Go map. -/
def alistErase (k : String) : List (String × α) → List (String × α)
  | [] => []
  | (k₁, v₁) :: rest =>
      if k₁ = k then alistErase k rest else (k₁, v₁) :: alistErase k rest

/-! ## Strings: Go `strings.ToLower` / `strings.TrimSpace` (ASCII fragment) -/

/-- Whitespace recognizer used by Go `strings.TrimSpace` (ASCII fragment of
`unicode.IsSpace`). -/
def goIsSpace (c : Char) : Bool :=
  c = ' ' || c = '\t' || c = '\n' || c = '\x0b' || c = '\x0c' || c = '\r'

/-- Go `strings.TrimSpace` (ASCII fragment): drop leading and trailing
whitespace. -/
def goTrimSpace (s : String) : String :=
  String.mk (((s.data.dropWhile goIsSpace).reverse.dropWhile goIsSpace).reverse)

/-- Go `strings.ToLower` (ASCII fragment): lower-case every character. -/
def goToLower (s : String) : String :=
  String.mk (s.data.map Char.toLower)

/-! ## SHA-256 (model of Go `crypto/sha256` + `encoding/hex`) -/

/-- Truncation to a 32-bit word. -/
def w32 (n : Nat) : Nat := n % 4294967296

/-- 32-bit right rotation. -/
def rotr32 (x n : Nat) : Nat := w32 ((x >>> n) ||| (x <<< (32 - n)))

/-- UTF-8 encoding of one code point as a byte list (Go `[]byte(s)`). -/
def utf8Bytes (c : Nat) : List Nat :=
  if c < 128 then [c]
  else if c < 2048 then [192 ||| (c >>> 6), 128 ||| (c &&& 63)]
  else if c < 65536 then
    [224 ||| (c >>> 12), 128 ||| ((c >>> 6) &&& 63), 128 ||| (c &&& 63)]
  else
    [240 ||| (c >>> 18), 128 ||| ((c >>> 12) &&& 63),
     128 ||| ((c >>> 6) &&& 63), 128 ||| (c &&& 63)]

/-- The bytes of a string, modelling Go `[]byte(s)`. -/
def strBytes (s : String) : List Nat :=
  (s.data.map (fun c => utf8Bytes c.toNat)).flatten

/-- `n` as `k` big-endian bytes. -/
def beBytes (k n : Nat) : List Nat :=
  ((List.range k).reverse).map (fun i => (n >>> (8 * i)) % 256)

/-- SHA-256 message padding. -/
def sha256Pad (msg : List Nat) : List Nat :=
  let L := msg.length
  let zeros := (119 - (L % 64)) % 64
  msg ++ [128] ++ List.replicate zeros 0 ++ beBytes 8 (L * 8)

/-- Pack big-endian bytes into 32-bit words. -/
def bytesToWords : List Nat → List Nat
  | b0 :: b1 :: b2 :: b3 :: rest =>
      ((((b0 <<< 8) ||| b1) <<< 8 ||| b2) <<< 8 ||| b3) :: bytesToWords rest
  | _ => []

/-- The 64 SHA-256 round constants (in decimal). -/
def sha256K : List Nat :=
  [1116352408, 1899447441, 3049323471, 3921009573, 961987163,
   1508970993, 2453635748, 2870763221, 3624381080, 310598401,
   607225278, 1426881987, 1925078388, 2162078206, 2614888103,
   3248222580, 3835390401, 4022224774, 264347078, 604807628,
   770255983, 1249150122, 1555081692, 1996064986, 2554220882,
   2821834349, 2952996808, 3210313671, 3336571891, 3584528711,
   113926993, 338241895, 666307205, 773529912, 1294757372,
   1396182291, 1695183700, 1986661051, 2177026350, 2456956037,
   2730485921, 2820302411, 3259730800, 3345764771, 3516065817,
   3600352804, 4094571909, 275423344, 430227734, 506948616,
   659060556, 883997877, 958139571, 1322822218, 1537002063,
   1747873779, 1955562222, 2024104815, 2227730452, 2361852424,
   2428436474, 2756734187, 3204031479, 3329325298]

/-- SHA-256 working state: the eight 32-bit hash words. -/
structure Hash8 where
  v0 : Nat
  v1 : Nat
  v2 : Nat
  v3 : Nat
  v4 : Nat
  v5 : Nat
  v6 : Nat
  v7 : Nat

/-- The SHA-256 initial hash value (in decimal). -/
def sha256Init : Hash8 :=
  ⟨1779033703, 3144134277, 1013904242, 2773480762,
   1359893119, 2600822924, 528734635, 1541459225⟩

/-- Extend a 16-word block to the 64-word message schedule (`fuel` = 48). -/
def sha256Extend : Nat → List Nat → List Nat
  | 0, ws => ws
  | fuel + 1, ws =>
      let n := ws.length
      let s0 :=
        rotr32 (ws.getD (n - 15) 0) 7 ^^^ rotr32 (ws.getD (n - 15) 0) 18 ^^^
          (ws.getD (n - 15) 0 >>> 3)
      let s1 :=
        rotr32 (ws.getD (n - 2) 0) 17 ^^^ rotr32 (ws.getD (n - 2) 0) 19 ^^^
          (ws.getD (n - 2) 0 >>> 10)
      sha256Extend fuel
        (ws ++ [w32 (ws.getD (n - 16) 0 + s0 + ws.getD (n - 7) 0 + s1)])

/-- One SHA-256 compression round. -/
def sha256Round (s : Hash8) (kw : Nat × Nat) : Hash8 :=
  let S1 := rotr32 s.v4 6 ^^^ rotr32 s.v4 11 ^^^ rotr32 s.v4 25
  let ch := (s.v4 &&& s.v5) ^^^ ((s.v4 ^^^ 0xffffffff) &&& s.v6)
  let t1 := w32 (s.v7 + S1 + ch + kw.1 + kw.2)
  let S0 := rotr32 s.v0 2 ^^^ rotr32 s.v0 13 ^^^ rotr32 s.v0 22
  let maj := (s.v0 &&& s.v1) ^^^ (s.v0 &&& s.v2) ^^^ (s.v1 &&& s.v2)
  let t2 := w32 (S0 + maj)
  ⟨w32 (t1 + t2), s.v0, s.v1, s.v2, w32 (s.v3 + t1), s.v4, s.v5, s.v6⟩

/-- Add two hash states word-wise mod 2^32. -/
def hash8Add (a b : Hash8) : Hash8 :=
  ⟨w32 (a.v0 + b.v0), w32 (a.v1 + b.v1), w32 (a.v2 + b.v2), w32 (a.v3 + b.v3),
   w32 (a.v4 + b.v4), w32 (a.v5 + b.v5), w32 (a.v6 + b.v6), w32 (a.v7 + b.v7)⟩

/-- Process the padded message, 16 words (one block) at a time. -/
def sha256Blocks (st : Hash8) : List Nat → Hash8
  | w0 :: w1 :: w2 :: w3 :: w4 :: w5 :: w6 :: w7 ::
    w8 :: w9 :: w10 :: w11 :: w12 :: w13 :: w14 :: w15 :: rest =>
      let ws := sha256Extend 48
        [w0, w1, w2, w3, w4, w5, w6, w7, w8, w9, w10, w11, w12, w13, w14, w15]
      let s₁ := (sha256K.zip ws).foldl sha256Round st
      sha256Blocks (hash8Add st s₁) rest
  | _ => st

/-- One hex digit. -/
def hexDigit (n : Nat) : Char :=
  if n < 10 then Char.ofNat (48 + n) else Char.ofNat (87 + n)

/-- A 32-bit word as 8 lower-case hex characters (model of
`hex.EncodeToString` on its big-endian bytes). -/
def hexWord (w : Nat) : List Char :=
  (List.range 8).map (fun i => hexDigit ((w >>> (4 * (7 - i))) % 16))

/-- Model of `sha256Hash` in `config.go`: hex-encoded SHA-256 of a string. -/
def sha256Hash (s : String) : String :=
  let st := sha256Blocks sha256Init (bytesToWords (sha256Pad (strBytes s)))
  String.mk
    ((([st.v0, st.v1, st.v2, st.v3, st.v4, st.v5, st.v6, st.v7]).map hexWord).flatten)

/-! ## Configuration (`config.go`) -/

/-- Model of `Config[V]`.  Optional function fields are `Option`s (Go `nil`
is `none`).  `goRepr` is the default string rendering Go obtains through
`fmt.Sprintf("%v", v)`; the embedding cannot reflect on `V`, so the
rendering is supplied explicitly and is used only by `defaultHashFunc`. -/
structure Config (V : Type u) where
  primaryKeyFunc : Option (V → String)
  hashFunc : Option (List V → String)
  validateFunc : Option (V → Option String)
  normalizeFunc : Option (V → V)
  sortFunc : Option (List V → List V)
  goRepr : V → String

/-- Model of `defaultHashFunc` in `config.go`: concatenate each value's
default rendering followed by a newline and digest the result; the digest
of `"empty"` for an empty slice. -/
def defaultHashFunc (goRepr : V → String) (values : List V) : String :=
  if values.length = 0 then sha256Hash "empty"
  else sha256Hash (values.foldl (fun sb v => sb ++ goRepr v ++ "\n") "")

/-- Model of `DefaultConfig[V]`: only the hash function is pre-set. -/
def DefaultConfig (goRepr : V → String) : Config V :=
  { primaryKeyFunc := none
    hashFunc := some (defaultHashFunc goRepr)
    validateFunc := none
    normalizeFunc := none
    sortFunc := none
    goRepr := goRepr }

/-! ## The multi-index memory cache -/

/-- Model of `MemoryCache[V]`: primary mapping, insertion order, secondary
indexes (`index name → index key → primary key`), the index key-extractor
functions, and the cached hash.  The `sync.RWMutex` is not modelled: every
operation is an atomic function on this state. -/
structure MemoryCache (V : Type u) where
  config : Config V
  data : List (String × V)
  order : List String
  indexes : List (String × List (String × String))
  indexFns : List (String × (V → String))
  hash : String

/-- Model of `NewMultiIndexCache` (with a non-nil config; Go substitutes
`DefaultConfig()` for a nil one before reaching this state). -/
def NewMultiIndexCache (config : Config V) : MemoryCache V :=
  { config := config, data := [], order := [], indexes := [], indexFns := [], hash := "" }

/-- Model of `MemoryCache.normalizeKey`: lower-cased, trimmed. -/
def normalizeKey (key : String) : String :=
  goToLower (goTrimSpace key)

/-- The value after the configured normalizer, if any. -/
def normalizeVal (cfg : Config V) (v : V) : V :=
  match cfg.normalizeFunc with
  | some f => f v
  | none => v

/-- Whether the configured validator (if any) accepts the value. -/
def isValid (cfg : Config V) (v : V) : Bool :=
  match cfg.validateFunc with
  | some f => (f v).isNone
  | none => true

/-- The primary key the `Set` loop computes: the extractor's result, or
`""` when no extractor is configured. -/
def primaryKeyOf (cfg : Config V) (v : V) : String :=
  match cfg.primaryKeyFunc with
  | some f => f v
  | none => ""

/-- One step of the index rebuild loops: record `normalizeKey (f v) → pk`
unless the extracted key is empty. -/
def istep (f : V → String) (idx : List (String × String)) (p : String × V) :
    List (String × String) :=
  let ik := f p.2
  if ik = "" then idx else alistInsert (normalizeKey ik) p.1 idx

/-- The index entries contributed by a list of data entries: one binding
`normalizeKey (f v) → pk` per entry whose extracted key is non-empty, in
list order. -/
def indexEntriesOf (f : V → String) (l : List (String × V)) : List (String × String) :=
  l.filterMap (fun p => if f p.2 = "" then none else some (normalizeKey (f p.2), p.1))

/-- The rebuild of `AddIndex` under an explicit iteration order of the
data map: Go's `for pk, v := range c.data` visits the map in an
unspecified order, so the rebuild is modelled as a fold over a
caller-supplied permutation of the entries. -/
def MemoryCache.AddIndexOrdered (c : MemoryCache V) (name : String) (keyFunc : V → String)
    (entries : List (String × V)) : MemoryCache V :=
  { c with
    indexFns := alistInsert name keyFunc c.indexFns
    indexes := alistInsert name (entries.foldl (istep keyFunc) []) c.indexes }

/-- Model of `MemoryCache.AddIndex`: registers/replaces the extractor and
rebuilds the index from the current data.  Go ranges over the `data` map
in unspecified order; this canonical model iterates in insertion order,
and theorems whose truth could depend on the iteration order quantify
over all permutations through `AddIndexOrdered`. -/
def MemoryCache.AddIndex (c : MemoryCache V) (name : String) (keyFunc : V → String) :
    MemoryCache V :=
  c.AddIndexOrdered name keyFunc c.data

/-- Model of `MemoryCache.RemoveIndex`. -/
def MemoryCache.RemoveIndex (c : MemoryCache V) (name : String) : MemoryCache V :=
  { c with indexFns := alistErase name c.indexFns, indexes := alistErase name c.indexes }

/-- Model of `MemoryCache.HasIndex`. -/
def MemoryCache.HasIndex (c : MemoryCache V) (name : String) : Bool :=
  (alistLookup name c.indexFns).isSome

/-- Model of `MemoryCache.GetByIndex`. -/
def MemoryCache.GetByIndex (c : MemoryCache V) (indexName key : String) : Option V :=
  match alistLookup indexName c.indexes with
  | none => none
  | some index =>
      match alistLookup (normalizeKey key) index with
      | none => none
      | some pk => alistLookup pk c.data

/-- Model of `MemoryCache.Get`. -/
def MemoryCache.Get (c : MemoryCache V) (key : String) : Option V :=
  alistLookup key c.data

/-- The mutable locals of the `Set` loop. -/
structure SetAcc (V : Type u) where
  data : List (String × V)
  order : List String
  indexes : List (String × List (String × String))

/-- The `Set` loop's inner index update: for every registered extractor,
record the value's index key unless it is empty. -/
def updateIndexes (indexFns : List (String × (V → String)))
    (ixs : List (String × List (String × String))) (pk : String) (v : V) :
    List (String × List (String × String)) :=
  indexFns.foldl
    (fun m nf =>
      let ik := nf.2 v
      if ik = "" then m
      else alistInsert nf.1 (alistInsert (normalizeKey ik) pk ((alistLookup nf.1 m).getD [])) m)
    ixs

/-- One iteration of the `Set` loop: normalize, validate (skip on error),
extract the primary key (skip when empty), then update data, order and
every index. -/
def setStep (cfg : Config V) (indexFns : List (String × (V → String)))
    (acc : SetAcc V) (v0 : V) : SetAcc V :=
  let v := normalizeVal cfg v0
  if isValid cfg v then
    let pk := primaryKeyOf cfg v
    if pk = "" then acc
    else
      { data := alistInsert pk v acc.data
        order := if (alistLookup pk acc.data).isSome then acc.order else acc.order ++ [pk]
        indexes := updateIndexes indexFns acc.indexes pk v }
  else acc

/-- Empty every registered index while keeping it registered
(`c.indexes[name] = make(...)` for every name). -/
def clearIndexes (ixs : List (String × List (String × String))) :
    List (String × List (String × String)) :=
  ixs.map (fun p => (p.1, ([] : List (String × String))))

/-- Model of `MemoryCache.calculateHash`: digest of `"empty"` for an empty
mapping, otherwise the (optionally sorted) values in order, fed to the
configured hash function or the default one. -/
def calculateHash (cfg : Config V) (data : List (String × V)) (order : List String) :
    String :=
  if data.length = 0 then sha256Hash "empty"
  else
    let values := order.filterMap (fun pk => alistLookup pk data)
    let values :=
      match cfg.sortFunc with
      | some f => f values
      | none => values
    match cfg.hashFunc with
    | some f => f values
    | none => defaultHashFunc cfg.goRepr values

/-- Model of `MemoryCache.Set`: `none` models the panic on non-empty input
without a primary-key extractor; otherwise the dataset is fully replaced,
indexes are rebuilt and the hash is recomputed. -/
def MemoryCache.Set (c : MemoryCache V) (values : List V) : Option (MemoryCache V) :=
  if values.length > 0 && c.config.primaryKeyFunc.isNone then none
  else
    let acc := values.foldl (setStep c.config c.indexFns) ⟨[], [], clearIndexes c.indexes⟩
    some { c with
            data := acc.data
            order := acc.order
            indexes := acc.indexes
            hash := calculateHash c.config acc.data acc.order }

/-- Model of `MemoryCache.GetAll`: values in insertion order. -/
def MemoryCache.GetAll (c : MemoryCache V) : List V :=
  c.order.filterMap (fun pk => alistLookup pk c.data)

/-- Model of `MemoryCache.Len`. -/
def MemoryCache.Len (c : MemoryCache V) : Nat :=
  c.data.length

/-- Model of `MemoryCache.Clear`: empties data and order, empties (but
keeps) every index, and sets the cached hash to the empty string. -/
def MemoryCache.Clear (c : MemoryCache V) : MemoryCache V :=
  { c with data := [], order := [], indexes := clearIndexes c.indexes, hash := "" }

/-- Model of `MemoryCache.GetHash`: a pure accessor of the cached hash. -/
def MemoryCache.GetHash (c : MemoryCache V) : String :=
  c.hash

/-- The visiting loop of `Iterate`, returning the visited values: when the
callback returns `false` on a value, that value is still visited but the
loop stops. -/
def iterateGo (d : List (String × V)) (fn : V → Bool) : List String → List V
  | [] => []
  | pk :: rest =>
      match alistLookup pk d with
      | none => iterateGo d fn rest
      | some v => if fn v then v :: iterateGo d fn rest else [v]

/-- Model of `MemoryCache.Iterate` as the list of visited values. -/
def MemoryCache.Iterate (c : MemoryCache V) (fn : V → Bool) : List V :=
  iterateGo c.data fn c.order

/-- Model of `MemoryCache.IndexCount`. -/
def MemoryCache.IndexCount (c : MemoryCache V) : Nat :=
  c.indexFns.length

/-- Model of `MemoryCache.IndexNames`. -/
def MemoryCache.IndexNames (c : MemoryCache V) : List String :=
  c.indexFns.map Prod.fst

/-! ## Spec-side descriptions of `Set`'s outcome

These definitions follow the specification's words and are compared with
the embedded operations in the theorems below. -/

/-- Spec: whether one input value is accepted by the pipeline
(normalize, validate, extract a non-empty primary key), and if so its
key/value pair. -/
def acceptOne (cfg : Config V) (v0 : V) : Option (String × V) :=
  let v := normalizeVal cfg v0
  if isValid cfg v then
    let pk := primaryKeyOf cfg v
    if pk = "" then none else some (pk, v)
  else none

/-- Spec: the values of `vs` that pass validation after normalization and
have a non-empty primary key, paired with that key, in input order. -/
def acceptedKeyed (cfg : Config V) (values : List V) : List (String × V) :=
  values.filterMap (acceptOne cfg)

/-- Spec: the distinct keys of a key sequence, in order of first
appearance. -/
def firstSeenKeys (ks : List String) : List String :=
  ks.foldl (fun acc k => if k ∈ acc then acc else acc ++ [k]) []

/-- Spec: the last accepted value whose primary key is `pk`. -/
def lastAccepted (pk : String) : List (String × V) → Option V
  | [] => none
  | p :: rest =>
      match lastAccepted pk rest with
      | some w => some w
      | none => if p.1 = pk then some p.2 else none

/-- Spec: the accepted values deduplicated by primary key — for each key in
order of first appearance, the last accepted value for that key. -/
def specDedup (l : List (String × V)) : List V :=
  (firstSeenKeys (l.map Prod.fst)).filterMap (fun k => lastAccepted k l)

/-! ## The `Set` loop as a fold over the accepted key/value pairs -/

/-- The `Set` loop step on an already-accepted keyed value. -/
def kstep (indexFns : List (String × (V → String))) (acc : SetAcc V) (p : String × V) :
    SetAcc V :=
  { data := alistInsert p.1 p.2 acc.data
    order := if (alistLookup p.1 acc.data).isSome then acc.order else acc.order ++ [p.1]
    indexes := updateIndexes indexFns acc.indexes p.1 p.2 }

/-! ## Concrete instances used by witnesses and counterexamples -/

/-- A sample value type mirroring the repository's `TestUser` test type. -/
structure TestUser where
  id : String
  email : String
deriving DecidableEq

/-- A sample rendering standing for `fmt.Sprintf("%v", u)`. -/
def testRepr (u : TestUser) : String :=
  u.id ++ " " ++ u.email

/-- A sample configuration: primary key `id`, a constant custom hash. -/
def exCfg : Config TestUser :=
  { primaryKeyFunc := some TestUser.id
    hashFunc := some (fun _ => "h")
    validateFunc := none
    normalizeFunc := none
    sortFunc := none
    goRepr := testRepr }

/-- The sample configuration without a primary-key extractor. -/
def exCfgNoPk : Config TestUser :=
  { exCfg with primaryKeyFunc := none }

/-- The sample dataset `[(1,a), (1,b), (2,c)]` (a duplicate primary key). -/
def exUsers : List TestUser :=
  [⟨"1", "a"⟩, ⟨"1", "b"⟩, ⟨"2", "c"⟩]

/-- The cache obtained by `Set exUsers` on a fresh cache. -/
def exCache1 : MemoryCache TestUser :=
  ((NewMultiIndexCache exCfg).Set exUsers).getD (NewMultiIndexCache exCfg)

/-- A dataset with distinct primary keys and distinct index keys. -/
def exUsersC3 : List TestUser :=
  [⟨"1", "a@x"⟩, ⟨"2", "b@x"⟩]

/-- `AddIndex` before `Set exUsersC3`. -/
def exCacheC3A : MemoryCache TestUser :=
  (((NewMultiIndexCache exCfg).AddIndex "em" TestUser.email).Set exUsersC3).getD
    (NewMultiIndexCache exCfg)

/-- `Set exUsersC3` alone (the index is registered afterwards). -/
def exCacheC3B : MemoryCache TestUser :=
  ((NewMultiIndexCache exCfg).Set exUsersC3).getD (NewMultiIndexCache exCfg)

/-- A non-trivial iteration order of `exCacheC3B`'s data map: the entries
reversed. -/
def exPermC3 : List (String × TestUser) :=
  [("2", ⟨"2", "b@x"⟩), ("1", ⟨"1", "a@x"⟩)]

/-! ## The Redis adapter (`redis.go`)

The remote store is consumed through the five primitives `get`,
`set-with-expiry`, `incr`, `expire` and `del`; the store itself is
external, so it is modelled at exactly that interface: a key/value map
whose values are what the adapter can observe — an encoded dataset (the
byte length of its JSON encoding carried alongside, since the embedding
does not model the byte-level encoding), a foreign string that does not
decode, or an integer counter as written by `INCR`.  Durations are
nanosecond counts (`Int`), like Go's `time.Duration`. -/

/-- Model of `RedisConfig`.  `MaxValueBytes` is the read guard used by
`RedisCache.Get` (declared outside the snapshot's `config.go` but used by
`redis.go`); `DefaultRedisConfig` leaves it at Go's zero value. -/
structure RedisConfig where
  KeyPrefix : String
  VersionKeySuffix : String
  TTL : Int
  OperationTimeout : Int
  MaxValueBytes : Nat

/-- Model of `DefaultRedisConfig`: prefix `cache:`, suffix `:version`,
TTL one hour, operation timeout five seconds. -/
def DefaultRedisConfig : RedisConfig :=
  { KeyPrefix := "cache:"
    VersionKeySuffix := ":version"
    TTL := 3600000000000
    OperationTimeout := 5000000000
    MaxValueBytes := 0 }

/-- A value stored in the remote key-value store, as the adapter can
observe it. -/
inductive RValue (V : Type u) where
  | blob (vs : List V) (nbytes : Nat)
  | raw (s : String)
  | intVal (n : Int)

/-- The byte size of a stored value (`len(data)` on the Redis reply). -/
def RValue.size : RValue V → Nat
  | .blob _ n => n
  | .raw s => (strBytes s).length
  | .intVal n => (strBytes (toString n)).length

/-- The remote store: key → (value, optional expiry in nanoseconds;
`none` is a key without expiry, as `INCR` creates it). -/
structure Store (V : Type u) where
  entries : List (String × (RValue V × Option Int))

/-- A store in which the adapter has never written: no keys. -/
def Store.init : Store V := ⟨[]⟩

/-- Primitive `GET`. -/
def Store.get (st : Store V) (k : String) : Option (RValue V) :=
  (alistLookup k st.entries).map Prod.fst

/-- Primitive `SET` with expiry. -/
def Store.set (st : Store V) (k : String) (rv : RValue V) (ttl : Int) : Store V :=
  ⟨alistInsert k (rv, some ttl) st.entries⟩

/-- Primitive `INCR`: creates the key at 1 (without expiry), increments an
integer value keeping its expiry, and fails on a non-integer value. -/
def Store.incr (st : Store V) (k : String) : Except String (Store V) :=
  match alistLookup k st.entries with
  | none => .ok ⟨alistInsert k (RValue.intVal 1, none) st.entries⟩
  | some (RValue.intVal n, t) => .ok ⟨alistInsert k (RValue.intVal (n + 1), t) st.entries⟩
  | some _ => .error "value is not an integer"

/-- Primitive `EXPIRE`: sets the expiry of an existing key. -/
def Store.expire (st : Store V) (k : String) (ttl : Int) : Store V :=
  match alistLookup k st.entries with
  | none => st
  | some (rv, _) => ⟨alistInsert k (rv, some ttl) st.entries⟩

/-- Primitive `DEL`. -/
def Store.del (st : Store V) (k : String) : Store V :=
  ⟨alistErase k st.entries⟩

/-- The recorded expiry of a key. -/
def Store.ttlOf (st : Store V) (k : String) : Option Int :=
  (alistLookup k st.entries).bind Prod.snd

/-- Model of `RedisCache[V]`: `clientNil` models a nil `*redis.Client`. -/
structure RedisCache (V : Type u) where
  clientNil : Bool
  config : RedisConfig
  key : String

/-- Model of `maxRedisKeyLen`. -/
def maxRedisKeyLen : Nat := 512

/-- Model of `validateRedisKeys` as a check (`false` models the panic). -/
def validateRedisKeys (dataKey versionKey : String) : Bool :=
  !(dataKey = "") && !(versionKey = "") && !(versionKey = dataKey) &&
    (strBytes dataKey).length ≤ maxRedisKeyLen &&
    (strBytes versionKey).length ≤ maxRedisKeyLen

/-- Model of `NewRedisCache` (`none` models a construction panic; a Go nil
config is replaced by the default before reaching this state). -/
def NewRedisCache (clientNil : Bool) (config : RedisConfig) : Option (RedisCache V) :=
  if config.KeyPrefix = "" then none
  else if config.VersionKeySuffix = "" then none
  else
    let dataKey := config.KeyPrefix ++ "data"
    if validateRedisKeys dataKey (dataKey ++ config.VersionKeySuffix) then
      some { clientNil := clientNil, config := config, key := dataKey }
    else none

/-- Model of `NewRedisCacheWithKey`. -/
def NewRedisCacheWithKey (clientNil : Bool) (key : String) (config : RedisConfig) :
    Option (RedisCache V) :=
  if key = "" then none
  else if config.VersionKeySuffix = "" then none
  else if validateRedisKeys key (key ++ config.VersionKeySuffix) then
    some { clientNil := clientNil, config := config, key := key }
  else none

/-- Model of `RedisCache.versionKey`. -/
def RedisCache.versionKey (c : RedisCache V) : String :=
  c.key ++ c.config.VersionKeySuffix

/-- Model of `RedisCache.effectiveTTL`: the given TTL when positive, else
the configured TTL when positive, else one hour. -/
def RedisCache.effectiveTTL (c : RedisCache V) (ttl : Int) : Int :=
  if ttl > 0 then ttl
  else if c.config.TTL > 0 then c.config.TTL
  else 3600000000000

/-- Model of `RedisCache.SetWithTTL`: marshal (always succeeds in the
model; `nbytes` is the length of the JSON encoding), then as one pipeline
store the blob with the effective TTL, increment the version key, and
refresh the version key's expiry. -/
def RedisCache.SetWithTTL (c : RedisCache V) (st : Store V) (values : List V)
    (nbytes : Nat) (ttl : Int) : Except String (Store V) :=
  if c.clientNil then .error "redis client is nil"
  else
    let t := c.effectiveTTL ttl
    match (st.set c.key (RValue.blob values nbytes) t).incr c.versionKey with
    | .error e => .error ("failed to set cache: " ++ e)
    | .ok st2 => .ok (st2.expire c.versionKey t)

/-- Model of `RedisCache.Set`: the same pipeline with the configured TTL
(`effectiveTTL c.config.TTL`). -/
def RedisCache.Set (c : RedisCache V) (st : Store V) (values : List V) (nbytes : Nat) :
    Except String (Store V) :=
  if c.clientNil then .error "redis client is nil"
  else
    let t := c.effectiveTTL c.config.TTL
    match (st.set c.key (RValue.blob values nbytes) t).incr c.versionKey with
    | .error e => .error ("failed to set cache: " ++ e)
    | .ok st2 => .ok (st2.expire c.versionKey t)

/-- Model of `RedisCache.Get`: absent key → empty dataset; oversized value
(when `MaxValueBytes` is configured) → error before decoding; undecodable
value → error; otherwise the decoded dataset. -/
def RedisCache.Get (c : RedisCache V) (st : Store V) : Except String (List V) :=
  if c.clientNil then .error "redis client is nil"
  else
    match st.get c.key with
    | none => .ok []
    | some rv =>
        if c.config.MaxValueBytes > 0 && rv.size > c.config.MaxValueBytes then
          .error "cache value size exceeds max allowed"
        else
          match rv with
          | RValue.blob vs _ => .ok vs
          | _ => .error "failed to unmarshal values"

/-- Model of `RedisCache.Exists`. -/
def RedisCache.Exists (c : RedisCache V) (st : Store V) : Except String Bool :=
  if c.clientNil then .error "redis client is nil"
  else .ok (st.get c.key).isSome

/-- Model of `RedisCache.GetVersion`: 0 when the version key is absent,
its integer value otherwise, an error on a non-integer value. -/
def RedisCache.GetVersion (c : RedisCache V) (st : Store V) : Except String Int :=
  if c.clientNil then .error "redis client is nil"
  else
    match st.get c.versionKey with
    | none => .ok 0
    | some (RValue.intVal n) => .ok n
    | some _ => .error "failed to get version"

/-- Model of `RedisCache.Clear`: one pipeline deleting the data key and
the version key. -/
def RedisCache.Clear (c : RedisCache V) (st : Store V) : Except String (Store V) :=
  if c.clientNil then .error "redis client is nil"
  else .ok ((st.del c.key).del c.versionKey)

/-- Model of `HybridCache[V]`. -/
structure HybridCache (V : Type u) where
  memory : MemoryCache V
  redis : RedisCache V

/-- Model of `HybridCache.Set`: the memory cache is updated first (its
panic propagates as `none`), then the remote write is attempted; the
remote result is returned alongside the updated hybrid state, with no
rollback of memory on a remote failure. -/
def HybridCache.Set (h : HybridCache V) (st : Store V) (values : List V) (nbytes : Nat) :
    Option (HybridCache V × Except String (Store V)) :=
  match h.memory.Set values with
  | none => none
  | some mem => some ({ h with memory := mem }, h.redis.Set st values nbytes)

/-- Model of `HybridCache.AddIndex`: delegates to the memory cache. -/
def HybridCache.AddIndex (h : HybridCache V) (name : String) (keyFunc : V → String) :
    HybridCache V :=
  { h with memory := h.memory.AddIndex name keyFunc }

/-- Model of `HybridCache.GetAll`: reads memory only. -/
def HybridCache.GetAll (h : HybridCache V) : List V :=
  h.memory.GetAll

/-- Model of `HybridCache.GetByIndex`: reads memory only. -/
def HybridCache.GetByIndex (h : HybridCache V) (indexName key : String) : Option V :=
  h.memory.GetByIndex indexName key

/-- A concrete adapter over `TestUser` with the default configuration. -/
def exRedis : RedisCache TestUser :=
  { clientNil := false, config := DefaultRedisConfig, key := "cache:data" }

/-- The same adapter with a 3-byte read limit configured. -/
def exRedisMax : RedisCache TestUser :=
  { exRedis with config := { DefaultRedisConfig with MaxValueBytes := 3 } }

/-- The store after one `Set` on an empty store. -/
def exStore1 : Store TestUser :=
  ((exRedis.Set Store.init [⟨"1", "a"⟩] 10).toOption).getD Store.init

/-- The store after clearing `exStore1`. -/
def exStoreCleared : Store TestUser :=
  ((exRedis.Clear exStore1).toOption).getD Store.init

/-- The store after a `SetWithTTL` with a non-positive TTL. -/
def exStoreTTL : Store TestUser :=
  ((exRedis.SetWithTTL Store.init [⟨"1", "a"⟩] 10 (-5)).toOption).getD Store.init

/-- A store whose data key holds a foreign, undecodable string. -/
def exStoreRaw : Store TestUser :=
  ⟨[("cache:data", (RValue.raw "invalid-json", none))]⟩

/-- A store whose data key holds a 10-byte dataset blob. -/
def exStoreBig : Store TestUser :=
  ⟨[("cache:data", (RValue.blob [⟨"1", "a"⟩] 10, none))]⟩

/-- A hybrid cache whose remote half has a nil client. -/
def exHybrid : HybridCache TestUser :=
  { memory := NewMultiIndexCache exCfg, redis := { exRedis with clientNil := true } }

/-- States reachable from a freshly constructed cache by the public
mutating operations. -/
inductive Reachable (cfg : Config V) : MemoryCache V → Prop where
  | new : Reachable cfg (NewMultiIndexCache cfg)
  | set {c c' : MemoryCache V} (vs : List V) :
      Reachable cfg c → c.Set vs = some c' → Reachable cfg c'
  | clear {c : MemoryCache V} : Reachable cfg c → Reachable cfg c.Clear
  | addIndex {c : MemoryCache V} (name : String) (f : V → String) :
      Reachable cfg c → Reachable cfg (c.AddIndex name f)
  | removeIndex {c : MemoryCache V} (name : String) :
      Reachable cfg c → Reachable cfg (c.RemoveIndex name)

/-! ## Association-list lemmas -/

theorem alistLookup_insert (k q : String) (v : α) (l : List (String × α)) :
    alistLookup q (alistInsert k v l) = if k = q then some v else alistLookup q l := by
  induction l with
  | nil => simp [alistInsert, alistLookup]
  | cons p rest ih =>
      obtain ⟨k₁, v₁⟩ := p
      by_cases h1 : k₁ = k
      · subst h1
        by_cases h2 : k₁ = q <;> simp [alistInsert, alistLookup, h2]
      · by_cases h2 : k₁ = q
        · subst h2
          have h3 : ¬k = k₁ := fun h => h1 h.symm
          simp [alistInsert, alistLookup, h1, h3]
        · simp [alistInsert, alistLookup, h1, h2, ih]

theorem alistLookup_isSome_iff (k : String) (l : List (String × α)) :
    (alistLookup k l).isSome = true ↔ k ∈ l.map Prod.fst := by
  induction l with
  | nil => simp [alistLookup]
  | cons p rest ih =>
      rw [List.map_cons, List.mem_cons]
      by_cases h : p.1 = k
      · simp [alistLookup, h]
      · have h2 : ¬k = p.1 := fun hh => h hh.symm
        simp [alistLookup, h, h2, ih]

theorem alistInsert_map_fst (k : String) (v : α) (l : List (String × α)) :
    (alistInsert k v l).map Prod.fst =
      if (alistLookup k l).isSome then l.map Prod.fst else l.map Prod.fst ++ [k] := by
  induction l with
  | nil => simp [alistInsert, alistLookup]
  | cons p rest ih =>
      by_cases h : p.1 = k
      · simp [alistInsert, alistLookup, h]
      · simp only [alistInsert, h, if_false, List.map_cons, alistLookup, ih]
        split <;> simp

theorem alistInsert_append (k : String) (v : α) (l : List (String × α))
    (h : k ∉ l.map Prod.fst) : alistInsert k v l = l ++ [(k, v)] := by
  induction l with
  | nil => rfl
  | cons p rest ih =>
      simp only [List.map_cons, List.mem_cons, not_or] at h
      have h1 : ¬p.1 = k := fun hh => h.1 hh.symm
      simp [alistInsert, h1, ih h.2]

theorem mem_alistInsert (q : String × α) (k : String) (v : α) (l : List (String × α))
    (h : q ∈ alistInsert k v l) : q = (k, v) ∨ q ∈ l := by
  induction l with
  | nil => simpa [alistInsert] using h
  | cons p rest ih =>
      by_cases h1 : p.1 = k
      · simp only [alistInsert, h1, if_true, List.mem_cons] at h
        rcases h with h | h
        · exact Or.inl h
        · exact Or.inr (List.mem_cons_of_mem _ h)
      · simp only [alistInsert, h1, if_false, List.mem_cons] at h
        rcases h with h | h
        · exact Or.inr (h ▸ List.mem_cons_self _ _)
        · rcases ih h with h | h
          · exact Or.inl h
          · exact Or.inr (List.mem_cons_of_mem _ h)

theorem alistLookup_clearIndexes (name : String)
    (ixs : List (String × List (String × String))) :
    alistLookup name (clearIndexes ixs) =
      (alistLookup name ixs).map (fun _ => ([] : List (String × String))) := by
  induction ixs with
  | nil => rfl
  | cons p rest ih =>
      by_cases h : p.1 = name
      · simp [clearIndexes, alistLookup, h]
      · simpa [clearIndexes, alistLookup, h] using ih

theorem setFold_eq (cfg : Config V) (fns : List (String × (V → String)))
    (values : List V) (acc : SetAcc V) :
    values.foldl (setStep cfg fns) acc = (acceptedKeyed cfg values).foldl (kstep fns) acc := by
  induction values generalizing acc with
  | nil => rfl
  | cons v0 rest ih =>
      simp only [List.foldl_cons, acceptedKeyed, List.filterMap_cons]
      by_cases hv : isValid cfg (normalizeVal cfg v0)
      · by_cases hp : primaryKeyOf cfg (normalizeVal cfg v0) = ""
        · simpa [setStep, acceptOne, hv, hp] using ih acc
        · simpa [setStep, acceptOne, hv, hp, kstep] using
            ih (kstep fns acc (primaryKeyOf cfg (normalizeVal cfg v0), normalizeVal cfg v0))
      · simpa [setStep, acceptOne, hv] using ih acc

theorem kfold_data (fns : List (String × (V → String))) (l : List (String × V))
    (acc : SetAcc V) :
    (l.foldl (kstep fns) acc).data = l.foldl (fun d p => alistInsert p.1 p.2 d) acc.data := by
  induction l generalizing acc with
  | nil => rfl
  | cons p rest ih => simpa [kstep] using ih (kstep fns acc p)

theorem kfold_lookup (fns : List (String × (V → String))) (l : List (String × V))
    (acc : SetAcc V) (k : String) :
    alistLookup k (l.foldl (kstep fns) acc).data =
      (lastAccepted k l).or (alistLookup k acc.data) := by
  induction l generalizing acc with
  | nil => simp [lastAccepted]
  | cons p rest ih =>
      rw [List.foldl_cons, ih]
      show (lastAccepted k rest).or (alistLookup k (alistInsert p.1 p.2 acc.data)) = _
      rw [alistLookup_insert]
      cases hl : lastAccepted k rest with
      | some w => simp [lastAccepted, hl, Option.or]
      | none =>
          by_cases hk : p.1 = k <;> simp [lastAccepted, hl, hk, Option.or]

theorem kfold_fst_eq_order (fns : List (String × (V → String))) (l : List (String × V))
    (acc : SetAcc V) (h : acc.data.map Prod.fst = acc.order) :
    (l.foldl (kstep fns) acc).data.map Prod.fst = (l.foldl (kstep fns) acc).order := by
  induction l generalizing acc with
  | nil => exact h
  | cons p rest ih =>
      apply ih
      show (alistInsert p.1 p.2 acc.data).map Prod.fst = _
      rw [alistInsert_map_fst, h]
      rfl

theorem kfold_order_eq (fns : List (String × (V → String))) (l : List (String × V))
    (acc : SetAcc V) (h : acc.data.map Prod.fst = acc.order) :
    (l.foldl (kstep fns) acc).order =
      (l.map Prod.fst).foldl (fun o k => if k ∈ o then o else o ++ [k]) acc.order := by
  induction l generalizing acc with
  | nil => rfl
  | cons p rest ih =>
      have hinv : (kstep fns acc p).data.map Prod.fst = (kstep fns acc p).order := by
        show (alistInsert p.1 p.2 acc.data).map Prod.fst = _
        rw [alistInsert_map_fst, h]
        rfl
      rw [List.foldl_cons, List.map_cons, List.foldl_cons, ih _ hinv]
      by_cases hm : p.1 ∈ acc.order
      · have hs : (alistLookup p.1 acc.data).isSome = true := by
          rw [alistLookup_isSome_iff, h]
          exact hm
        simp [kstep, hs, hm]
      · have hs : ¬(alistLookup p.1 acc.data).isSome = true := by
          rw [alistLookup_isSome_iff, h]
          exact hm
        simp [kstep, hs, hm]

theorem kfold_nodup (fns : List (String × (V → String))) (l : List (String × V))
    (acc : SetAcc V) (h : acc.data.map Prod.fst = acc.order) (hn : acc.order.Nodup) :
    (l.foldl (kstep fns) acc).order.Nodup := by
  induction l generalizing acc with
  | nil => exact hn
  | cons p rest ih =>
      have hinv : (kstep fns acc p).data.map Prod.fst = (kstep fns acc p).order := by
        show (alistInsert p.1 p.2 acc.data).map Prod.fst = _
        rw [alistInsert_map_fst, h]
        rfl
      apply ih _ hinv
      by_cases hm : p.1 ∈ acc.order
      · have hs : (alistLookup p.1 acc.data).isSome = true := by
          rw [alistLookup_isSome_iff, h]
          exact hm
        simpa [kstep, hs] using hn
      · have hs : ¬(alistLookup p.1 acc.data).isSome = true := by
          rw [alistLookup_isSome_iff, h]
          exact hm
        show (if (alistLookup p.1 acc.data).isSome then acc.order else acc.order ++ [p.1]).Nodup
        rw [if_neg hs]
        refine hn.append (List.nodup_singleton _) ?_
        intro a ha hb
        rw [List.mem_singleton] at hb
        exact hm (hb ▸ ha)

theorem kfold_entries (fns : List (String × (V → String))) (l : List (String × V))
    (acc : SetAcc V) (q : String × V)
    (hq : q ∈ (l.foldl (kstep fns) acc).data) : q ∈ l ∨ q ∈ acc.data := by
  induction l generalizing acc with
  | nil => exact Or.inr hq
  | cons p rest ih =>
      rcases ih (kstep fns acc p) hq with h1 | h2
      · exact Or.inl (List.mem_cons_of_mem _ h1)
      · rcases mem_alistInsert q p.1 p.2 acc.data h2 with h3 | h4
        · exact Or.inl (by rw [h3]; simp)
        · exact Or.inr h4

theorem kfold_indexes_nil (l : List (String × V)) (acc : SetAcc V) :
    (l.foldl (kstep ([] : List (String × (V → String)))) acc).indexes = acc.indexes := by
  induction l generalizing acc with
  | nil => rfl
  | cons p rest ih =>
      simpa [kstep, updateIndexes] using ih (kstep [] acc p)

theorem updateIndexes_single (name : String) (f : V → String)
    (j : List (String × String)) (pk : String) (v : V) :
    updateIndexes [(name, f)] [(name, j)] pk v = [(name, istep f j (pk, v))] := by
  by_cases h : f v = "" <;>
    simp [updateIndexes, istep, h, alistLookup, alistInsert]

theorem kfold_indexes_single (name : String) (f : V → String) (l : List (String × V))
    (j : List (String × String)) (d : List (String × V)) (o : List String) :
    (l.foldl (kstep [(name, f)]) ⟨d, o, [(name, j)]⟩).indexes =
      [(name, l.foldl (istep f) j)] := by
  induction l generalizing j d o with
  | nil => rfl
  | cons p rest ih =>
      rw [List.foldl_cons, List.foldl_cons]
      show (rest.foldl (kstep [(name, f)])
        ⟨alistInsert p.1 p.2 d, _, updateIndexes [(name, f)] [(name, j)] p.1 p.2⟩).indexes = _
      rw [updateIndexes_single]
      exact ih (istep f j (p.1, p.2)) _ _

theorem dfold_of_nodup (l : List (String × V)) (d : List (String × V))
    (hd : ∀ k ∈ l.map Prod.fst, k ∉ d.map Prod.fst) (hn : (l.map Prod.fst).Nodup) :
    l.foldl (fun d p => alistInsert p.1 p.2 d) d = d ++ l := by
  induction l generalizing d with
  | nil => simp
  | cons p rest ih =>
      rw [List.map_cons] at hn
      have hnc := List.nodup_cons.mp hn
      have h1 : p.1 ∉ d.map Prod.fst := hd p.1 (by simp)
      rw [List.foldl_cons, alistInsert_append _ _ _ h1, ih]
      · simp
      · intro k hk
        simp only [List.map_append, List.map_cons, List.map_nil, List.mem_append,
          List.mem_singleton, not_or]
        exact ⟨hd k (by simp [hk]), fun hkp => hnc.1 (hkp ▸ hk)⟩
      · exact hnc.2

theorem filterMap_lookup_eq_map_snd (d : List (String × V))
    (hn : (d.map Prod.fst).Nodup) :
    (d.map Prod.fst).filterMap (fun k => alistLookup k d) = d.map Prod.snd := by
  induction d with
  | nil => rfl
  | cons p rest ih =>
      have h1 : alistLookup p.1 (p :: rest) = some p.2 := by simp [alistLookup]
      rw [List.map_cons] at hn
      have hnc := List.nodup_cons.mp hn
      have hcong : ∀ k ∈ rest.map Prod.fst, alistLookup k (p :: rest) = alistLookup k rest := by
        intro k hk
        have h2 : ¬p.1 = k := fun hh => hnc.1 (hh ▸ hk)
        simp [alistLookup, h2]
      rw [List.map_cons, List.filterMap_cons, h1, List.filterMap_congr hcong, ih hnc.2,
        List.map_cons]

/-! ## Characterization of `Set` -/

theorem Set_characterization (c : MemoryCache V) (values : List V) (c' : MemoryCache V)
    (h : c.Set values = some c') :
    c'.config = c.config ∧
    c'.indexFns = c.indexFns ∧
    c'.data.map Prod.fst = c'.order ∧
    c'.order = firstSeenKeys ((acceptedKeyed c.config values).map Prod.fst) ∧
    c'.order.Nodup ∧
    (∀ k, alistLookup k c'.data = lastAccepted k (acceptedKeyed c.config values)) ∧
    (∀ q ∈ c'.data, q ∈ acceptedKeyed c.config values) := by
  rw [MemoryCache.Set] at h
  split at h
  · exact Option.noConfusion h
  · rw [Option.some.injEq] at h
    subst h
    refine ⟨rfl, rfl, ?_, ?_, ?_, ?_, ?_⟩
    · show (values.foldl (setStep c.config c.indexFns) ⟨[], [], clearIndexes c.indexes⟩).data.map
          Prod.fst = _
      rw [setFold_eq]
      exact kfold_fst_eq_order _ _ _ rfl
    · show (values.foldl (setStep c.config c.indexFns) ⟨[], [], clearIndexes c.indexes⟩).order = _
      rw [setFold_eq]
      exact kfold_order_eq _ _ _ rfl
    · show (values.foldl (setStep c.config c.indexFns) ⟨[], [], clearIndexes c.indexes⟩).order.Nodup
      rw [setFold_eq]
      exact kfold_nodup _ _ _ rfl List.nodup_nil
    · intro k
      show alistLookup k
          (values.foldl (setStep c.config c.indexFns) ⟨[], [], clearIndexes c.indexes⟩).data = _
      rw [setFold_eq, kfold_lookup]
      exact Option.or_none
    · intro q hq
      replace hq : q ∈
          (values.foldl (setStep c.config c.indexFns) ⟨[], [], clearIndexes c.indexes⟩).data := hq
      rw [setFold_eq] at hq
      rcases kfold_entries _ _ _ _ hq with h1 | h1
      · exact h1
      · exact absurd h1 (List.not_mem_nil q)

theorem GetAll_eq_map_snd (c : MemoryCache V) (h1 : c.data.map Prod.fst = c.order)
    (h2 : c.order.Nodup) : c.GetAll = c.data.map Prod.snd := by
  rw [MemoryCache.GetAll, ← h1]
  exact filterMap_lookup_eq_map_snd c.data (by rw [h1]; exact h2)

theorem Set_GetAll (c : MemoryCache V) (values : List V) (c' : MemoryCache V)
    (h : c.Set values = some c') :
    c'.GetAll = specDedup (acceptedKeyed c.config values) := by
  obtain ⟨-, -, -, h4, -, h6, -⟩ := Set_characterization c values c' h
  rw [MemoryCache.GetAll, h4, specDedup]
  exact List.filterMap_congr (fun k _ => h6 k)

theorem Set_Len (c : MemoryCache V) (values : List V) (c' : MemoryCache V)
    (h : c.Set values = some c') :
    c'.Len = (firstSeenKeys ((acceptedKeyed c.config values).map Prod.fst)).length := by
  obtain ⟨-, -, h3, h4, -, -, -⟩ := Set_characterization c values c' h
  rw [MemoryCache.Len, ← List.length_map c'.data Prod.fst, h3, h4]

/-! ## Claim theorems: the memory cache -/

/-- C1: after a successful `Set values`, `Len` is the number of distinct
non-empty primary keys among the values that pass validation after
normalization, `Get pk` is the last accepted value whose key is `pk`, and
`GetAll` is the accepted values deduplicated by key, in order of first
appearance of each key. -/
theorem memory_set_spec (c : MemoryCache V) (values : List V) (c' : MemoryCache V)
    (h : c.Set values = some c') :
    c'.Len = (firstSeenKeys ((acceptedKeyed c.config values).map Prod.fst)).length ∧
    (∀ pk, c'.Get pk = lastAccepted pk (acceptedKeyed c.config values)) ∧
    c'.GetAll = specDedup (acceptedKeyed c.config values) :=
  ⟨Set_Len c values c' h,
   fun pk => (Set_characterization c values c' h).2.2.2.2.2.1 pk,
   Set_GetAll c values c' h⟩

/-- Witness for C1 at the concrete dataset `exUsers`. -/
theorem memory_set_spec_witness :
    exCache1.Len = (firstSeenKeys ((acceptedKeyed exCfg exUsers).map Prod.fst)).length ∧
    exCache1.Get "1" = lastAccepted "1" (acceptedKeyed exCfg exUsers) ∧
    exCache1.GetAll = specDedup (acceptedKeyed exCfg exUsers) :=
  have h := memory_set_spec (NewMultiIndexCache exCfg) exUsers exCache1 rfl
  ⟨h.1, h.2.1 "1", h.2.2⟩

/-- C4: the memory cache's `Set` fails hard (modelled as `none`) exactly
when the input is non-empty and no primary-key extractor is configured;
`Set []` always succeeds, also without an extractor, and yields an empty
cache. -/
theorem set_guard_spec (c : MemoryCache V) (values : List V) :
    (c.Set values = none ↔ values ≠ [] ∧ c.config.primaryKeyFunc = none) ∧
    ∃ c₀, c.Set [] = some c₀ ∧ c₀.Len = 0 ∧ c₀.GetAll = [] ∧ ∀ k, c₀.Get k = none := by
  constructor
  · constructor
    · intro hnone
      rw [MemoryCache.Set] at hnone
      split at hnone
      case isTrue hb =>
        simp only [Bool.and_eq_true, decide_eq_true_eq, Option.isNone_iff_eq_none] at hb
        exact ⟨List.ne_nil_of_length_pos hb.1, hb.2⟩
      case isFalse hb => exact Option.noConfusion hnone
    · rintro ⟨hne, hpk⟩
      have hb : (values.length > 0 && c.config.primaryKeyFunc.isNone) = true := by
        simp [hpk, List.length_pos, hne]
      rw [MemoryCache.Set, if_pos hb]
  · exact ⟨_, rfl, rfl, rfl, fun _ => rfl⟩

/-- Witness for C4: a non-empty `Set` without an extractor does fail, and
`Set []` without an extractor succeeds with an empty cache. -/
theorem set_guard_spec_witness :
    ([(⟨"1", "a"⟩ : TestUser)] ≠ [] ∧ exCfgNoPk.primaryKeyFunc = none) ∧
    ∃ c₀, (NewMultiIndexCache exCfgNoPk).Set [] = some c₀ ∧ c₀.Len = 0 ∧
      c₀.GetAll = [] ∧ ∀ k, c₀.Get k = none :=
  ⟨((set_guard_spec (NewMultiIndexCache exCfgNoPk) [⟨"1", "a"⟩]).1).mp rfl,
   (set_guard_spec (NewMultiIndexCache exCfgNoPk) [⟨"1", "a"⟩]).2⟩

/-- C5: `GetByIndex` depends only on the normalized (trimmed, lower-cased)
lookup key: keys that normalize equally give equal results. -/
theorem getByIndex_normalized (c : MemoryCache V) (name k₁ k₂ : String)
    (h : normalizeKey k₁ = normalizeKey k₂) :
    c.GetByIndex name k₁ = c.GetByIndex name k₂ := by
  simp only [MemoryCache.GetByIndex, h]

/-- Witness for C5 at the spec's own example pair of lookup keys. -/
theorem getByIndex_normalized_witness :
    normalizeKey "  A@B.com  " = normalizeKey "a@b.com" ∧
    exCache1.GetByIndex "email" "  A@B.com  " = exCache1.GetByIndex "email" "a@b.com" :=
  ⟨by decide, getByIndex_normalized exCache1 "email" "  A@B.com  " "a@b.com" (by decide)⟩

/-- C2 (amended): after `Clear()` the cache has `Len() = 0`, every
previously registered index still reports `HasIndex = true` but
`GetByIndex` on it is not-found for every key, and `GetHash()` is the empty
string — which differs from the empty-dataset digest `sha256Hash "empty"`
that `GetHash()` returns after `Set` of an empty slice. -/
theorem clear_spec (c : MemoryCache V) :
    c.Clear.Len = 0 ∧
    (∀ name, c.Clear.HasIndex name = c.HasIndex name) ∧
    (∀ name key, c.Clear.GetByIndex name key = none) ∧
    c.Clear.GetHash = "" ∧
    (∀ c₀ c₁ : MemoryCache V, c₀.Set [] = some c₁ → c₁.GetHash = sha256Hash "empty") ∧
    sha256Hash "empty" ≠ "" := by
  refine ⟨rfl, fun _ => rfl, ?_, rfl, ?_, ?_⟩
  · intro name key
    simp only [MemoryCache.GetByIndex, MemoryCache.Clear, alistLookup_clearIndexes]
    cases alistLookup name c.indexes <;> simp [alistLookup]
  · intro c₀ c₁ h
    rw [MemoryCache.Set, if_neg (by simp), Option.some.injEq] at h
    rw [← h]
    rfl
  · decide

/-- Witness for C2's `Set []` conjunct at a concrete cache. -/
theorem clear_spec_witness :
    exCache1.Clear.Len = 0 ∧ exCache1.Clear.GetHash = "" ∧
    ∀ c₁, exCache1.Set [] = some c₁ → c₁.GetHash = sha256Hash "empty" :=
  have h := clear_spec exCache1
  ⟨h.1, h.2.2.2.1, fun c₁ hc => h.2.2.2.2.1 exCache1 c₁ hc⟩

/-! ## Claim C3: registering an index before vs. after loading -/

theorem acceptedKeyed_pk (cfg : Config V) (values : List V) (q : String × V)
    (hq : q ∈ acceptedKeyed cfg values) : primaryKeyOf cfg q.2 = q.1 ∧ q.1 ≠ "" := by
  rw [acceptedKeyed, List.mem_filterMap] at hq
  obtain ⟨v0, -, hv⟩ := hq
  simp only [acceptOne] at hv
  split_ifs at hv with h1 h2
  rw [Option.some.injEq] at hv
  subst hv
  exact ⟨rfl, h2⟩

theorem alistLookup_eq_some_mem (k : String) (v : α) (l : List (String × α))
    (h : alistLookup k l = some v) : (k, v) ∈ l := by
  induction l with
  | nil => exact Option.noConfusion h
  | cons p rest ih =>
      rw [show alistLookup k (p :: rest) = if p.1 = k then some p.2 else alistLookup k rest
        from rfl] at h
      by_cases hk : p.1 = k
      · rw [if_pos hk, Option.some.injEq] at h
        subst h
        subst hk
        simp
      · rw [if_neg hk] at h
        exact List.mem_cons_of_mem _ (ih h)

theorem alistLookup_mem_of_nodup (k : String) (v : α) (l : List (String × α))
    (hn : (l.map Prod.fst).Nodup) (h : (k, v) ∈ l) : alistLookup k l = some v := by
  induction l with
  | nil => exact absurd h (List.not_mem_nil _)
  | cons p rest ih =>
      rw [List.map_cons] at hn
      have hnc := List.nodup_cons.mp hn
      rcases List.mem_cons.mp h with h1 | h1
      · rw [← h1]
        simp [alistLookup]
      · have hk : ¬p.1 = k := by
          intro he
          exact hnc.1 (he ▸ List.mem_map.mpr ⟨(k, v), h1, rfl⟩)
        simp [alistLookup, hk, ih hnc.2 h1]

/-- On association lists without duplicate keys, lookups are invariant
under permutation of the entries. -/
theorem alistLookup_perm (l₁ l₂ : List (String × α)) (hp : l₁.Perm l₂)
    (hn : (l₁.map Prod.fst).Nodup) (k : String) :
    alistLookup k l₁ = alistLookup k l₂ := by
  cases h1 : alistLookup k l₁ with
  | some v =>
      have hn2 : (l₂.map Prod.fst).Nodup := ((hp.map Prod.fst).nodup_iff).mp hn
      exact (alistLookup_mem_of_nodup k v l₂ hn2
        (hp.mem_iff.mp (alistLookup_eq_some_mem k v l₁ h1))).symm
  | none =>
      have h2 : k ∉ l₁.map Prod.fst := by
        rw [← alistLookup_isSome_iff, h1]
        simp
      have h3 : ¬(alistLookup k l₂).isSome = true := by
        rw [alistLookup_isSome_iff]
        exact fun hmem => h2 ((hp.map Prod.fst).mem_iff.mpr hmem)
      rw [Option.not_isSome_iff_eq_none] at h3
      exact h3.symm

/-- When the contributed index keys are pairwise distinct, the index
rebuild fold appends exactly those bindings, in fold order. -/
theorem ifold_append (f : V → String) (l : List (String × V)) :
    ∀ acc : List (String × String),
      (∀ ik ∈ (indexEntriesOf f l).map Prod.fst, ik ∉ acc.map Prod.fst) →
      ((indexEntriesOf f l).map Prod.fst).Nodup →
      l.foldl (istep f) acc = acc ++ indexEntriesOf f l := by
  induction l with
  | nil =>
      intro acc hd hn
      simp [indexEntriesOf]
  | cons p rest ih =>
      intro acc hd hn
      by_cases he : f p.2 = ""
      · have hIE : indexEntriesOf f (p :: rest) = indexEntriesOf f rest := by
          simp [indexEntriesOf, he]
        rw [hIE] at hd hn
        rw [List.foldl_cons, show istep f acc p = acc from by simp [istep, he], hIE]
        exact ih acc hd hn
      · have hIE : indexEntriesOf f (p :: rest) =
            (normalizeKey (f p.2), p.1) :: indexEntriesOf f rest := by
          simp [indexEntriesOf, he]
        rw [hIE, List.map_cons] at hd hn
        have hnc := List.nodup_cons.mp hn
        have hfresh : normalizeKey (f p.2) ∉ acc.map Prod.fst :=
          hd _ (List.mem_cons_self _ _)
        have hd2 : ∀ ik ∈ (indexEntriesOf f rest).map Prod.fst,
            ik ∉ (acc ++ [(normalizeKey (f p.2), p.1)]).map Prod.fst := by
          intro ik hik2
          simp only [List.map_append, List.map_cons, List.map_nil, List.mem_append,
            List.mem_singleton, not_or]
          exact ⟨hd ik (List.mem_cons_of_mem _ hik2), fun he2 => hnc.1 (he2 ▸ hik2)⟩
        rw [List.foldl_cons,
          show istep f acc p = alistInsert (normalizeKey (f p.2)) p.1 acc from by
            simp [istep, he],
          alistInsert_append _ _ _ hfresh, ih _ hd2 hnc.2, hIE]
        simp

theorem getByIndex_ext_lookup (c₁ c₂ : MemoryCache V) (name : String)
    (idx₁ idx₂ : List (String × String))
    (h₁ : alistLookup name c₁.indexes = some idx₁)
    (h₂ : alistLookup name c₂.indexes = some idx₂)
    (hl : ∀ ik, alistLookup ik idx₁ = alistLookup ik idx₂)
    (hdata : c₁.data = c₂.data) (key : String) :
    c₁.GetByIndex name key = c₂.GetByIndex name key := by
  simp only [MemoryCache.GetByIndex, h₁, h₂, hdata, hl (normalizeKey key)]

/-- `AddIndex` is the insertion-order instance of the order-parametric
rebuild. -/
theorem AddIndex_eq_ordered (c : MemoryCache V) (name : String) (f : V → String) :
    c.AddIndex name f = c.AddIndexOrdered name f c.data :=
  rfl

/-- C3 (amended): provided no primary key occurs twice among the accepted
values of `vs` and no two accepted values extract the same non-empty
normalized index key, registering the index after `Set` — with the data
map iterated in ANY order during the rebuild, since Go leaves map
iteration order unspecified — yields the same index-key-to-primary-key
mapping, and the same `GetByIndex` results for every lookup key, as
registering the index before `Set`. -/
theorem addIndex_commute (cfg : Config V) (name : String) (f : V → String) (vs : List V)
    (cA cB0 : MemoryCache V) (perm : List (String × V))
    (hA : ((NewMultiIndexCache cfg).AddIndex name f).Set vs = some cA)
    (hB : (NewMultiIndexCache cfg).Set vs = some cB0)
    (hperm : perm.Perm cB0.data)
    (hnd : ((acceptedKeyed cfg vs).map Prod.fst).Nodup)
    (hik : ((indexEntriesOf f (acceptedKeyed cfg vs)).map Prod.fst).Nodup) :
    ∃ idxA idxB,
      alistLookup name cA.indexes = some idxA ∧
      alistLookup name (cB0.AddIndexOrdered name f perm).indexes = some idxB ∧
      (∀ ik, alistLookup ik idxA = alistLookup ik idxB) ∧
      ∀ key, cA.GetByIndex name key =
        (cB0.AddIndexOrdered name f perm).GetByIndex name key := by
  rw [MemoryCache.Set] at hA hB
  split at hA
  · exact Option.noConfusion hA
  split at hB
  · exact Option.noConfusion hB
  rw [Option.some.injEq] at hA hB
  subst hA
  subst hB
  have hacc : (acceptedKeyed cfg vs).foldl (fun d p => alistInsert p.1 p.2 d) [] =
      acceptedKeyed cfg vs := by
    have h0 := dfold_of_nodup (acceptedKeyed cfg vs) [] (by simp) hnd
    simpa using h0
  have hAdata : (vs.foldl (setStep cfg [(name, f)])
      (⟨[], [], [(name, [])]⟩ : SetAcc V)).data = acceptedKeyed cfg vs := by
    rw [setFold_eq, kfold_data]
    exact hacc
  have hBdata : (vs.foldl (setStep cfg [])
      (⟨[], [], []⟩ : SetAcc V)).data = acceptedKeyed cfg vs := by
    rw [setFold_eq, kfold_data]
    exact hacc
  have hBidx : (vs.foldl (setStep cfg [])
      (⟨[], [], []⟩ : SetAcc V)).indexes = [] := by
    rw [setFold_eq]
    exact kfold_indexes_nil _ _
  have hAidx2 : alistLookup name
      (vs.foldl (setStep cfg [(name, f)]) (⟨[], [], [(name, [])]⟩ : SetAcc V)).indexes =
      some ((acceptedKeyed cfg vs).foldl (istep f) []) := by
    rw [setFold_eq, kfold_indexes_single name f _ [] [] []]
    simp [alistLookup]
  have hBidx2 : alistLookup name
      (alistInsert name (perm.foldl (istep f) [])
        (vs.foldl (setStep cfg []) (⟨[], [], []⟩ : SetAcc V)).indexes) =
      some (perm.foldl (istep f) []) := by
    rw [hBidx]
    simp [alistInsert, alistLookup]
  have hperm1 : perm.Perm ((vs.foldl (setStep cfg []) (⟨[], [], []⟩ : SetAcc V)).data) :=
    hperm
  rw [hBdata] at hperm1
  have hifoldA : (acceptedKeyed cfg vs).foldl (istep f) [] =
      indexEntriesOf f (acceptedKeyed cfg vs) :=
    ifold_append f (acceptedKeyed cfg vs) [] (by simp) hik
  have hpIE : (indexEntriesOf f perm).Perm (indexEntriesOf f (acceptedKeyed cfg vs)) :=
    hperm1.filterMap _
  have hikp : ((indexEntriesOf f perm).map Prod.fst).Nodup :=
    ((hpIE.map Prod.fst).nodup_iff).mpr hik
  have hifoldB : perm.foldl (istep f) [] = indexEntriesOf f perm :=
    ifold_append f perm [] (by simp) hikp
  have hlook : ∀ ik, alistLookup ik ((acceptedKeyed cfg vs).foldl (istep f) []) =
      alistLookup ik (perm.foldl (istep f) []) := by
    intro ik
    rw [hifoldA, hifoldB]
    exact alistLookup_perm _ _ hpIE.symm hik ik
  have hdata : (vs.foldl (setStep cfg [(name, f)]) (⟨[], [], [(name, [])]⟩ : SetAcc V)).data =
      (vs.foldl (setStep cfg []) (⟨[], [], []⟩ : SetAcc V)).data := by
    rw [hAdata, hBdata]
  refine ⟨(acceptedKeyed cfg vs).foldl (istep f) [], perm.foldl (istep f) [],
    ?_, ?_, hlook, ?_⟩
  · exact hAidx2
  · exact hBidx2
  · intro key
    exact getByIndex_ext_lookup _ _ name _ _ hAidx2 hBidx2 hlook hdata key

/-- Witness for C3 (amended): distinct primary keys, distinct index keys,
and a reversed iteration order for the rebuild. -/
theorem addIndex_commute_witness :
    exPermC3.Perm exCacheC3B.data ∧
    ((acceptedKeyed exCfg exUsersC3).map Prod.fst).Nodup ∧
    ((indexEntriesOf TestUser.email (acceptedKeyed exCfg exUsersC3)).map Prod.fst).Nodup ∧
    ∃ idxA idxB,
      alistLookup "em" exCacheC3A.indexes = some idxA ∧
      alistLookup "em" (exCacheC3B.AddIndexOrdered "em" TestUser.email exPermC3).indexes =
        some idxB ∧
      (∀ ik, alistLookup ik idxA = alistLookup ik idxB) ∧
      ∀ key, exCacheC3A.GetByIndex "em" key =
        (exCacheC3B.AddIndexOrdered "em" TestUser.email exPermC3).GetByIndex "em" key :=
  ⟨by decide, by decide, by decide,
   addIndex_commute exCfg "em" TestUser.email exUsersC3 exCacheC3A exCacheC3B exPermC3
     rfl rfl (by decide) (by decide) (by decide)⟩

/-- C3 counterexample: with a duplicate primary key whose two values carry
different index keys, `Set` after `AddIndex` leaves a stale index entry
(`"x"` still resolves), while `AddIndex` after `Set` does not. -/
theorem addIndex_commute_counterexample :
    ((((NewMultiIndexCache exCfg).AddIndex "em" TestUser.email).Set
        [⟨"a", "x"⟩, ⟨"a", "y"⟩]).map (fun c => c.GetByIndex "em" "x")) ≠
    (((NewMultiIndexCache exCfg).Set [⟨"a", "x"⟩, ⟨"a", "y"⟩]).map
        (fun c => (c.AddIndex "em" TestUser.email).GetByIndex "em" "x")) := by
  decide

/-! ## Claim C10: the reachable-state invariant -/


theorem reachable_invariant (cfg : Config V) (c : MemoryCache V) (h : Reachable cfg c) :
    c.config = cfg ∧ c.data.map Prod.fst = c.order ∧ c.order.Nodup ∧
    ∀ q ∈ c.data, primaryKeyOf cfg q.2 = q.1 := by
  induction h with
  | new => exact ⟨rfl, rfl, List.nodup_nil, fun q hq => absurd hq (List.not_mem_nil q)⟩
  | set vs hr hset ih =>
      obtain ⟨hc, -, -, -⟩ := ih
      obtain ⟨hc', -, h3, -, h5, -, h7⟩ := Set_characterization _ _ _ hset
      refine ⟨hc'.trans hc, h3, h5, ?_⟩
      intro q hq
      have h8 := h7 q hq
      rw [hc] at h8
      exact (acceptedKeyed_pk cfg _ q h8).1
  | clear hr ih =>
      exact ⟨ih.1, rfl, List.nodup_nil, fun q hq => absurd hq (List.not_mem_nil q)⟩
  | addIndex name f hr ih => exact ih
  | removeIndex name hr ih => exact ih

theorem iterateGo_true (d : List (String × V)) (o : List String) :
    iterateGo d (fun _ => true) o = o.filterMap (fun pk => alistLookup pk d) := by
  induction o with
  | nil => rfl
  | cons pk rest ih =>
      simp only [iterateGo, List.filterMap_cons]
      cases alistLookup pk d <;> simp [ih]

/-- C10: in every reachable state the insertion-order sequence is exactly
the keys of the primary mapping, each exactly once; consequently `Len`
equals `GetAll`'s length, `GetAll` has no two values with the same primary
key, and `Iterate` with an always-`true` callback visits each stored value
exactly once. -/
theorem reachable_order_invariant (cfg : Config V) (c : MemoryCache V)
    (h : Reachable cfg c) :
    c.data.map Prod.fst = c.order ∧ c.order.Nodup ∧
    c.Len = c.GetAll.length ∧
    c.GetAll = c.data.map Prod.snd ∧
    (c.GetAll.map (primaryKeyOf cfg)).Nodup ∧
    c.Iterate (fun _ => true) = c.GetAll := by
  obtain ⟨hc, h1, h2, h3⟩ := reachable_invariant cfg c h
  have hga : c.GetAll = c.data.map Prod.snd := GetAll_eq_map_snd c h1 h2
  refine ⟨h1, h2, ?_, hga, ?_, ?_⟩
  · rw [hga, MemoryCache.Len, List.length_map]
  · rw [hga, List.map_map]
    have h4 : c.data.map (primaryKeyOf cfg ∘ Prod.snd) = c.data.map Prod.fst :=
      List.map_congr_left (fun q hq => h3 q hq)
    rw [h4, h1]
    exact h2
  · rw [MemoryCache.Iterate, MemoryCache.GetAll, iterateGo_true]

/-- Witness for C10 at a state reached by one concrete `Set`. -/
theorem reachable_order_invariant_witness :
    exCache1.Len = exCache1.GetAll.length ∧
    (exCache1.GetAll.map (primaryKeyOf exCfg)).Nodup ∧
    exCache1.Iterate (fun _ => true) = exCache1.GetAll :=
  have hre : Reachable exCfg exCache1 :=
    Reachable.set exUsers Reachable.new
      (show (NewMultiIndexCache exCfg).Set exUsers = some exCache1 from rfl)
  have h := reachable_order_invariant exCfg exCache1 hre
  ⟨h.2.2.1, h.2.2.2.2.1, h.2.2.2.2.2⟩

/-- C2 counterexample: on a cache that has held data, `Clear` leaves a
hash different from the empty-dataset digest, although `Set` of an empty
slice does produce that digest. -/
theorem clear_hash_counterexample :
    exCache1.Clear.GetHash ≠ sha256Hash "empty" ∧
    (exCache1.Set []).map MemoryCache.GetHash = some (sha256Hash "empty") := by
  constructor
  · decide
  · rfl

/-! ## Lemmas about the Redis adapter -/

theorem alistLookup_erase_self (k : String) (l : List (String × α)) :
    alistLookup k (alistErase k l) = none := by
  induction l with
  | nil => rfl
  | cons p rest ih => by_cases h : p.1 = k <;> simp [alistErase, alistLookup, h, ih]

theorem setWithTTL_ok (c : RedisCache V) (st st' : Store V) (values : List V)
    (nbytes : Nat) (ttl : Int) (hk : c.key ≠ c.versionKey) (hnil : c.clientNil = false)
    (h : c.SetWithTTL st values nbytes ttl = .ok st') :
    (∀ n, c.GetVersion st = .ok n → c.GetVersion st' = .ok (n + 1)) ∧
    st'.ttlOf c.key = some (c.effectiveTTL ttl) ∧
    st'.ttlOf c.versionKey = some (c.effectiveTTL ttl) := by
  have hk2 : c.versionKey ≠ c.key := Ne.symm hk
  simp only [RedisCache.SetWithTTL, hnil, Bool.false_eq_true, if_false, Store.incr,
    Store.set] at h
  rw [alistLookup_insert, if_neg hk] at h
  cases hl : alistLookup c.versionKey st.entries with
  | none =>
      simp only [hl] at h
      rw [Except.ok.injEq] at h
      subst h
      refine ⟨?_, ?_, ?_⟩
      · intro n hv
        simp only [RedisCache.GetVersion, hnil, Bool.false_eq_true, if_false, Store.get,
          hl, Option.map_none'] at hv
        rw [Except.ok.injEq] at hv
        subst hv
        simp [RedisCache.GetVersion, hnil, Store.get, Store.expire, alistLookup_insert,
          hk, hk2]
      · simp [Store.ttlOf, Store.expire, alistLookup_insert, hk, hk2]
      · simp [Store.ttlOf, Store.expire, alistLookup_insert, hk, hk2]
  | some p =>
      obtain ⟨rv, t0⟩ := p
      cases rv with
      | intVal m =>
          simp only [hl] at h
          rw [Except.ok.injEq] at h
          subst h
          refine ⟨?_, ?_, ?_⟩
          · intro n hv
            simp only [RedisCache.GetVersion, hnil, Bool.false_eq_true, if_false, Store.get,
              hl, Option.map_some'] at hv
            rw [Except.ok.injEq] at hv
            subst hv
            simp [RedisCache.GetVersion, hnil, Store.get, Store.expire, alistLookup_insert,
              hk, hk2]
          · simp [Store.ttlOf, Store.expire, alistLookup_insert, hk, hk2]
          · simp [Store.ttlOf, Store.expire, alistLookup_insert, hk, hk2]
      | blob vs nb =>
          simp only [hl] at h
          exact Except.noConfusion h
      | raw s =>
          simp only [hl] at h
          exact Except.noConfusion h

theorem clear_version (c : RedisCache V) (st st' : Store V) (hnil : c.clientNil = false)
    (h : c.Clear st = .ok st') : c.GetVersion st' = .ok 0 := by
  simp only [RedisCache.Clear, hnil, Bool.false_eq_true, if_false, Except.ok.injEq] at h
  subst h
  simp [RedisCache.GetVersion, hnil, Store.get, Store.del, alistLookup_erase_self]

/-! ## Claim theorems: the Redis adapter and the hybrid cache -/

/-- C6: `GetVersion` is 0 on a store where the adapter's keys have never
been set; every successful `Set`/`SetWithTTL` increases the version read
by `GetVersion` by exactly 1; and after `Clear` (which deletes the data
and version keys together) `GetVersion` is 0 again. -/
theorem version_monotone (c : RedisCache V) (hk : c.key ≠ c.versionKey)
    (hnil : c.clientNil = false) :
    RedisCache.GetVersion c Store.init = .ok 0 ∧
    (∀ (st st' : Store V) values nbytes n, c.GetVersion st = .ok n →
      c.Set st values nbytes = .ok st' → c.GetVersion st' = .ok (n + 1)) ∧
    (∀ (st st' : Store V) values nbytes ttl n, c.GetVersion st = .ok n →
      c.SetWithTTL st values nbytes ttl = .ok st' → c.GetVersion st' = .ok (n + 1)) ∧
    (∀ (st st' : Store V), c.Clear st = .ok st' → c.GetVersion st' = .ok 0) := by
  refine ⟨?_, ?_, ?_, ?_⟩
  · simp [RedisCache.GetVersion, hnil, Store.get, Store.init, alistLookup]
  · intro st st' values nbytes n hv hs
    exact (setWithTTL_ok c st st' values nbytes c.config.TTL hk hnil hs).1 n hv
  · intro st st' values nbytes ttl n hv hs
    exact (setWithTTL_ok c st st' values nbytes ttl hk hnil hs).1 n hv
  · intro st st' hc
    exact clear_version c st st' hnil hc

/-- Witness for C6 on a concrete adapter and store. -/
theorem version_monotone_witness :
    RedisCache.GetVersion exRedis Store.init = .ok 0 ∧
    RedisCache.GetVersion exRedis exStore1 = .ok (0 + 1) ∧
    RedisCache.GetVersion exRedis exStoreCleared = .ok 0 :=
  have h := version_monotone exRedis (by decide) rfl
  ⟨h.1, h.2.1 Store.init exStore1 [⟨"1", "a"⟩] 10 0 h.1 rfl,
   h.2.2.2 exStore1 exStoreCleared rfl⟩

/-- C9: a successful `SetWithTTL ttl` (and `Set`, which uses the
configured TTL) applies `effectiveTTL` to both the data key and the
version key: `ttl` when positive, else the configured TTL when positive,
else one hour — and that value is always positive, so a successful write
never persists the dataset without an expiry. -/
theorem ttl_applied (c : RedisCache V) (hk : c.key ≠ c.versionKey) (ttl : Int) :
    c.effectiveTTL ttl =
      (if ttl > 0 then ttl else if c.config.TTL > 0 then c.config.TTL else 3600000000000) ∧
    0 < c.effectiveTTL ttl ∧
    (∀ (st st' : Store V) values nbytes, c.SetWithTTL st values nbytes ttl = .ok st' →
      st'.ttlOf c.key = some (c.effectiveTTL ttl) ∧
      st'.ttlOf c.versionKey = some (c.effectiveTTL ttl)) ∧
    (∀ (st st' : Store V) values nbytes, c.Set st values nbytes = .ok st' →
      st'.ttlOf c.key = some (c.effectiveTTL c.config.TTL) ∧
      st'.ttlOf c.versionKey = some (c.effectiveTTL c.config.TTL)) := by
  refine ⟨rfl, ?_, ?_, ?_⟩
  · rw [RedisCache.effectiveTTL]
    split_ifs with h1 h2
    · exact h1
    · exact h2
    · decide
  · intro st st' values nbytes hs
    have hnil : c.clientNil = false := by
      by_contra hb
      rw [Bool.not_eq_false] at hb
      simp [RedisCache.SetWithTTL, hb] at hs
    exact ⟨(setWithTTL_ok c st st' values nbytes ttl hk hnil hs).2.1,
      (setWithTTL_ok c st st' values nbytes ttl hk hnil hs).2.2⟩
  · intro st st' values nbytes hs
    have hnil : c.clientNil = false := by
      by_contra hb
      rw [Bool.not_eq_false] at hb
      simp [RedisCache.Set, hb] at hs
    exact ⟨(setWithTTL_ok c st st' values nbytes c.config.TTL hk hnil hs).2.1,
      (setWithTTL_ok c st st' values nbytes c.config.TTL hk hnil hs).2.2⟩

/-- Witness for C9: a non-positive TTL falls back to the configured
one-hour default on both keys. -/
theorem ttl_applied_witness :
    RedisCache.effectiveTTL exRedis (-5) = 3600000000000 ∧
    exStoreTTL.ttlOf exRedis.key = some (RedisCache.effectiveTTL exRedis (-5)) ∧
    exStoreTTL.ttlOf (RedisCache.versionKey exRedis) =
      some (RedisCache.effectiveTTL exRedis (-5)) :=
  have h := ttl_applied exRedis (by decide) (-5)
  have h2 := h.2.2.1 Store.init exStoreTTL [⟨"1", "a"⟩] 10 rfl
  ⟨by decide, h2.1, h2.2⟩

/-- C8: `Get` returns an empty dataset (no error) when the data key is
absent; an error when a maximum payload size is configured and the stored
value is larger; an error when the stored value does not decode as a
dataset; and the decoded dataset otherwise. -/
theorem redis_get_spec (c : RedisCache V) (st : Store V) (hnil : c.clientNil = false) :
    (st.get c.key = none → c.Get st = .ok []) ∧
    (∀ rv, st.get c.key = some rv →
      (c.config.MaxValueBytes > 0 && rv.size > c.config.MaxValueBytes) = true →
      c.Get st = .error "cache value size exceeds max allowed") ∧
    (∀ s, st.get c.key = some (RValue.raw s) →
      ((c.config.MaxValueBytes > 0 &&
        (RValue.raw s : RValue V).size > c.config.MaxValueBytes) = false) →
      c.Get st = .error "failed to unmarshal values") ∧
    (∀ vs nbytes, st.get c.key = some (RValue.blob vs nbytes) →
      ((c.config.MaxValueBytes > 0 &&
        (RValue.blob vs nbytes : RValue V).size > c.config.MaxValueBytes) = false) →
      c.Get st = .ok vs) := by
  refine ⟨?_, ?_, ?_, ?_⟩
  · intro h0
    simp [RedisCache.Get, hnil, h0]
  · intro rv h0 h1
    simp [RedisCache.Get, hnil, h0, h1]
  · intro s h0 h1
    simp [RedisCache.Get, hnil, h0, h1]
  · intro vs nbytes h0 h1
    simp [RedisCache.Get, hnil, h0, h1]

/-- Witness for C8 on concrete stores: absent key, oversized value,
undecodable value, decodable value. -/
theorem redis_get_spec_witness :
    RedisCache.Get exRedis (Store.init : Store TestUser) = .ok [] ∧
    RedisCache.Get exRedisMax exStoreBig = .error "cache value size exceeds max allowed" ∧
    RedisCache.Get exRedis exStoreRaw = .error "failed to unmarshal values" ∧
    RedisCache.Get exRedis exStoreBig = .ok [⟨"1", "a"⟩] :=
  ⟨(redis_get_spec exRedis (Store.init : Store TestUser) rfl).1 rfl,
   (redis_get_spec exRedisMax exStoreBig rfl).2.1 (RValue.blob [⟨"1", "a"⟩] 10) rfl
     (by decide),
   (redis_get_spec exRedis exStoreRaw rfl).2.2.1 "invalid-json" rfl (by decide),
   (redis_get_spec exRedis exStoreBig rfl).2.2.2 [⟨"1", "a"⟩] 10 rfl (by decide)⟩

/-- C7: with a failing remote store (nil client), `HybridCache.Set`
returns the remote error, yet the in-memory cache has already been fully
updated: its `GetAll` equals the accepted, deduplicated input, with no
rollback. -/
theorem hybrid_divergence (h : HybridCache V) (st : Store V) (values : List V)
    (nbytes : Nat) (pf : V → String) (hpk : h.memory.config.primaryKeyFunc = some pf)
    (hnil : h.redis.clientNil = true) :
    ∃ mem', h.Set st values nbytes =
        some ({ h with memory := mem' }, .error "redis client is nil") ∧
      mem'.GetAll = specDedup (acceptedKeyed h.memory.config values) := by
  have hcond : ¬((values.length > 0 && h.memory.config.primaryKeyFunc.isNone) = true) := by
    simp [hpk]
  obtain ⟨mem', hmem⟩ : ∃ mem', h.memory.Set values = some mem' := by
    simp only [MemoryCache.Set]
    rw [if_neg hcond]
    exact ⟨_, rfl⟩
  refine ⟨mem', ?_, Set_GetAll _ _ _ hmem⟩
  simp only [HybridCache.Set, hmem]
  simp [RedisCache.Set, hnil]

/-- Witness for C7 on a concrete hybrid cache with a nil remote client. -/
theorem hybrid_divergence_witness :
    exHybrid.memory.config.primaryKeyFunc = some TestUser.id ∧
    ∃ mem', exHybrid.Set Store.init exUsers 10 =
        some ({ exHybrid with memory := mem' }, .error "redis client is nil") ∧
      mem'.GetAll = specDedup (acceptedKeyed exHybrid.memory.config exUsers) :=
  ⟨rfl, hybrid_divergence exHybrid Store.init exUsers 10 TestUser.id rfl rfl⟩

end CacheKit
